import Mathlib

/-!
Verification of the symbol-extraction and call-graph grouping engine of
`repo_function_deepdive.py`.

The per-language extractors, the brace-span locator, the call-edge builder
and the connected-component grouping engine are embedded as executable Lean
functions, translated directly from the Python source.  Python strings are
modelled as `List Char`, machine integers as `Int`/`Nat`, Python's `-1`
"not found" sentinel as `Option`, and Python `set`s of names as
`Finset String`.
-/

/-- Characters matched by the regex class `[A-Za-z0-9_]` (Python `\w` over
ASCII identifiers, as used by `JS_FUNC_PATTERNS` and `JS_CALL_RE`). -/
def isWordChar (c : Char) : Bool :=
  (('A' ≤ c) && (c ≤ 'Z')) || (('a' ≤ c) && (c ≤ 'z')) ||
    (('0' ≤ c) && (c ≤ '9')) || (c == '_')

/-- Characters matched by the regex class `[A-Za-z_]` (first character of a
candidate callee in `JS_CALL_RE`). -/
def isIdentStart (c : Char) : Bool :=
  (('A' ≤ c) && (c ≤ 'Z')) || (('a' ≤ c) && (c ≤ 'z')) || (c == '_')

/-- ASCII whitespace, the characters matched by the regex `\s` on the
inputs this tool scans. -/
def isSpaceChar (c : Char) : Bool :=
  (c == ' ') || (c == '\t') || (c == '\n') || (c == '\r') ||
    (c.toNat == 11) || (c.toNat == 12)

/-- The single-quote character `'`. -/
def squoteC : Char := Char.ofNat 39

/-- The double-quote character `"`. -/
def dquoteC : Char := Char.ofNat 34

/-- The backtick character. -/
def btickC : Char := Char.ofNat 96

/-- The backslash character `\`. -/
def bslashC : Char := Char.ofNat 92

/-- Is this character one of the three JS quote characters tracked by
`_brace_span` (single quote, double quote, backtick)? -/
def isQuoteChar (c : Char) : Bool :=
  (c == squoteC) || (c == dquoteC) || (c == btickC)

/-- Loop of `_brace_span` (source lines 130-153): scan the suffix of the
code, tracking absolute index `i`, brace depth (a Python `int`, so `Int`
here), the active string quote (`in_str`) and the escape flag (`esc`).
Returns the absolute index of the brace that brings the depth to zero,
or `none` (Python `-1`). -/
def braceSpanAux : List Char → Nat → Int → Option Char → Bool → Option Nat
  | [], _, _, _, _ => none
  | ch :: rest, i, depth, some q, esc =>
    if esc then braceSpanAux rest (i + 1) depth (some q) false
    else if ch == bslashC then braceSpanAux rest (i + 1) depth (some q) true
    else if ch == q then braceSpanAux rest (i + 1) depth none esc
    else braceSpanAux rest (i + 1) depth (some q) esc
  | ch :: rest, i, depth, none, esc =>
    if isQuoteChar ch then braceSpanAux rest (i + 1) depth (some ch) esc
    else if ch == '{' then braceSpanAux rest (i + 1) (depth + 1) none esc
    else if ch == '}' then
      (if depth - 1 == 0 then some i else braceSpanAux rest (i + 1) (depth - 1) none esc)
    else braceSpanAux rest (i + 1) depth none esc

/-- `_brace_span(code, start_brace_idx)` from the source: index of the
matching closing brace scanning from `startIdx`, or `none` for Python's
`-1`. -/
def _brace_span (code : List Char) (startIdx : Nat) : Option Nat :=
  braceSpanAux (code.drop startIdx) startIdx 0 none false

/-- Modelled from the spec: one step of the quoting state machine used to
decide which characters are string content. State is (active quote, escape
flag); a backslash inside a string escapes the next character, a matching
unescaped quote closes the string. -/
def quoteStep (st : Option Char × Bool) (ch : Char) : Option Char × Bool :=
  match st with
  | (some q, esc) =>
    if esc then (some q, false)
    else if ch == bslashC then (some q, true)
    else if ch == q then (none, esc)
    else (some q, esc)
  | (none, esc) =>
    if isQuoteChar ch then (some ch, esc) else (none, esc)

/-- Is the scanner outside any string, i.e. is the next character a code
position? -/
def isCodeSt (st : Option Char × Bool) : Bool := decide (st.1 = none)

/-- Modelled from the spec: the nesting depth after one character, where
only braces at code positions are counted. -/
def depthUpd (st : Option Char × Bool) (ch : Char) (d : Int) : Int :=
  if isCodeSt st && (ch == '{') then d + 1
  else if isCodeSt st && (ch == '}') then d - 1
  else d

/-- Modelled from the spec: annotate every character of a suffix with
whether it is a code position (not inside single/double/backtick-quoted
string content) and with the running nesting depth after the character,
where only braces at code positions count. -/
def annotateDepth : List Char → (Option Char × Bool) → Int → List (Char × Bool × Int)
  | [], _, _ => []
  | ch :: rest, st, d =>
    (ch, isCodeSt st, depthUpd st ch d) ::
      annotateDepth rest (quoteStep st ch) (depthUpd st ch d)

/-- The predicate of `matchingCloseSpec`: a closing brace at a code
position at which the depth has returned to zero. -/
def closePred (t : Char × Bool × Int) : Bool :=
  t.2.1 && (t.1 == '}') && (t.2.2 == 0)

/-- Modelled from the spec (`Span Locator` contract, §4.1): the matching
closing bracket of the opening brace at `idx` is the first position at or
after `idx` holding a closing brace at a code position at which the
nesting depth returns to zero; `none` when no such position exists. -/
def matchingCloseSpec (code : List Char) (idx : Nat) : Option Nat :=
  (List.findIdx? closePred
      (annotateDepth (code.drop idx) (none, false) 0)).map (fun k => idx + k)

/-- The spec-side matcher over a suffix, with explicit scanner state and
result offset, used to set up the induction for `c5_brace_span_correct`. -/
def specR (s : List Char) (st : Option Char × Bool) (d : Int) (i : Nat) : Option Nat :=
  (List.findIdx? closePred (annotateDepth s st d)).map (fun k => i + k)

theorem findIdx?_cons_elim {α : Type} (p : α → Bool) (a : α) (l : List α) :
    List.findIdx? p (a :: l) =
      (if p a then some 0 else (List.findIdx? p l).map (fun k => k + 1)) := by
  simp [List.findIdx?_cons]

theorem specR_nil (st : Option Char × Bool) (d : Int) (i : Nat) :
    specR [] st d i = none := by
  simp [specR, annotateDepth]

theorem specR_cons_found (ch : Char) (rest : List Char) (st : Option Char × Bool)
    (d : Int) (i : Nat)
    (hp : closePred (ch, isCodeSt st, depthUpd st ch d) = true) :
    specR (ch :: rest) st d i = some i := by
  simp only [specR, annotateDepth]
  rw [findIdx?_cons_elim, if_pos hp]
  simp

theorem specR_cons_step (ch : Char) (rest : List Char) (st : Option Char × Bool)
    (d : Int) (i : Nat)
    (hp : closePred (ch, isCodeSt st, depthUpd st ch d) = false) :
    specR (ch :: rest) st d i =
      specR rest (quoteStep st ch) (depthUpd st ch d) (i + 1) := by
  simp only [specR, annotateDepth]
  rw [findIdx?_cons_elim, if_neg (by simp [hp])]
  cases List.findIdx? closePred (annotateDepth rest (quoteStep st ch) (depthUpd st ch d)) <;>
    simp [Nat.add_assoc, Nat.add_comm 1]

theorem quote_not_brace (ch : Char) (h : isQuoteChar ch = true) :
    ((ch == '{') = false) ∧ ((ch == '}') = false) := by
  revert h
  simp only [isQuoteChar, Bool.or_eq_true, beq_iff_eq]
  rintro ((h | h) | h) <;> subst h <;> exact ⟨by decide, by decide⟩

theorem braceSpanAux_eq_spec (s : List Char) :
    ∀ (i : Nat) (d : Int) (q : Option Char) (e : Bool),
      braceSpanAux s i d q e = specR s (q, e) d i := by
  induction s with
  | nil => intro i d q e; simp [braceSpanAux, specR_nil]
  | cons ch rest ih =>
    intro i d q e
    match q with
    | some qc =>
      rw [specR_cons_step _ _ _ _ _ (by simp [closePred, isCodeSt])]
      by_cases he : e = true
      · subst he
        simp [braceSpanAux, quoteStep, depthUpd, isCodeSt, ih]
      · have he' : e = false := by revert he; cases e <;> simp
        subst he'
        by_cases hb : (ch == bslashC) = true
        · simp [braceSpanAux, quoteStep, depthUpd, isCodeSt, hb, ih]
        · by_cases hqq : (ch == qc) = true
          · simp [braceSpanAux, quoteStep, depthUpd, isCodeSt, hb, hqq, ih]
          · simp [braceSpanAux, quoteStep, depthUpd, isCodeSt, hb, hqq, ih]
    | none =>
      by_cases hqc : isQuoteChar ch = true
      · obtain ⟨hno, hnc⟩ := quote_not_brace ch hqc
        rw [specR_cons_step _ _ _ _ _ (by simp [closePred, isCodeSt, hnc])]
        simp [braceSpanAux, quoteStep, depthUpd, isCodeSt, hqc, hno, hnc, ih]
      · by_cases hob : (ch == '{') = true
        · have hnc : (ch == '}') = false := by
            rw [beq_iff_eq] at hob; subst hob; decide
          rw [specR_cons_step _ _ _ _ _ (by simp [closePred, isCodeSt, hnc])]
          simp [braceSpanAux, quoteStep, depthUpd, isCodeSt, hqc, hob, hnc, ih]
        · by_cases hcb : (ch == '}') = true
          · have hno : (ch == '{') = false := by
              rw [beq_iff_eq] at hcb; subst hcb; decide
            have hD : depthUpd (none, e) ch d = d - 1 := by
              simp [depthUpd, isCodeSt, hno, hcb]
            by_cases hz : ((d - 1 : Int) == 0) = true
            · rw [specR_cons_found _ _ _ _ _ (by simp [closePred, isCodeSt, hcb, hD, hz])]
              simp [braceSpanAux, hqc, hno, hcb, hz]
            · rw [specR_cons_step _ _ _ _ _ (by simp [closePred, isCodeSt, hD, hz])]
              simp [braceSpanAux, quoteStep, hqc, hno, hcb, hz, hD, isCodeSt, ih]
          · rw [specR_cons_step _ _ _ _ _ (by simp [closePred, isCodeSt, hcb])]
            simp [braceSpanAux, quoteStep, depthUpd, isCodeSt, hqc, hob, hcb, ih]

/-- C5: for every source text and every index of an opening brace, the span
locator `_brace_span` returns exactly the matching closing brace in the
declarative sense (depth counting that ignores braces inside single-,
double- or backtick-quoted string content, honoring backslash escapes),
and returns the not-found sentinel exactly when no matching close exists. -/
theorem c5_brace_span_correct (code : List Char) (idx : Nat)
    (h : code.get? idx = some '{') :
    _brace_span code idx = matchingCloseSpec code idx := by
  unfold _brace_span matchingCloseSpec
  rw [braceSpanAux_eq_spec (code.drop idx) idx 0 none false]
  rfl

/-! ## Heuristic JS/TS extractor (`JS_FUNC_PATTERNS`, `JS_CALL_RE`,
`parse_js_functions`)

Each regex of the source is implemented as a deterministic character
scanner with the same matching semantics (the patterns use only greedy
quantifiers over pairwise-disjoint character classes, so backtracking
never changes the outcome), together with a `finditer` driver that scans
left to right and resumes after each match end. -/

/-- Regex `\b` before a word character: the previous character (if any)
must not be a word character. -/
def wordBoundary : Option Char → Bool
  | none => true
  | some c => !(isWordChar c)

/-- Match a literal character sequence, returning the rest of the input. -/
def dropLit : List Char → List Char → Option (List Char)
  | [], s => some s
  | _ :: _, [] => none
  | c :: cs, d :: ds => if d == c then dropLit cs ds else none

/-- Expect one specific character. -/
def expectChar (c : Char) : List Char → Option (List Char)
  | [] => none
  | d :: ds => if d == c then some ds else none

/-- `\bfunction\s+([A-Za-z0-9_]+)\s*\(` — named function declaration.
Returns (captured name, match length). -/
def matchDecl (prev : Option Char) (s : List Char) : Option (List Char × Nat) :=
  if !(wordBoundary prev) then none else
  match dropLit ("function".toList) s with
  | none => none
  | some r1 =>
    let p1 := r1.span isSpaceChar
    if p1.1.isEmpty then none else
    let p2 := p1.2.span isWordChar
    if p2.1.isEmpty then none else
    let p3 := p2.2.span isSpaceChar
    match expectChar '(' p3.2 with
    | none => none
    | some r4 => some (p2.1, s.length - r4.length)

/-- `(?:const|let|var)` keyword alternative. -/
def kwDrop (s : List Char) : Option (List Char) :=
  (dropLit ("const".toList) s) <|> (dropLit ("let".toList) s) <|>
    (dropLit ("var".toList) s)

/-- `\b(?:const|let|var)\s+([A-Za-z0-9_]+)\s*=\s*\([^\)]*\)\s*=>\s*{` —
variable bound to an arrow function. -/
def matchArrow (prev : Option Char) (s : List Char) : Option (List Char × Nat) :=
  if !(wordBoundary prev) then none else
  match kwDrop s with
  | none => none
  | some r1 =>
    let p1 := r1.span isSpaceChar
    if p1.1.isEmpty then none else
    let p2 := p1.2.span isWordChar
    if p2.1.isEmpty then none else
    let p3 := p2.2.span isSpaceChar
    match expectChar '=' p3.2 with
    | none => none
    | some r4 =>
      let p4 := r4.span isSpaceChar
      match expectChar '(' p4.2 with
      | none => none
      | some r5 =>
        let p5 := r5.span (fun c => !(c == ')'))
        match expectChar ')' p5.2 with
        | none => none
        | some r6 =>
          let p6 := r6.span isSpaceChar
          match dropLit ("=>".toList) p6.2 with
          | none => none
          | some r7 =>
            let p7 := r7.span isSpaceChar
            match expectChar '{' p7.2 with
            | none => none
            | some r8 => some (p2.1, s.length - r8.length)

/-- `\b(?:const|let|var)\s+([A-Za-z0-9_]+)\s*=\s*function\s*\(` —
variable bound to an anonymous function expression. -/
def matchExpr (prev : Option Char) (s : List Char) : Option (List Char × Nat) :=
  if !(wordBoundary prev) then none else
  match kwDrop s with
  | none => none
  | some r1 =>
    let p1 := r1.span isSpaceChar
    if p1.1.isEmpty then none else
    let p2 := p1.2.span isWordChar
    if p2.1.isEmpty then none else
    let p3 := p2.2.span isSpaceChar
    match expectChar '=' p3.2 with
    | none => none
    | some r4 =>
      let p4 := r4.span isSpaceChar
      match dropLit ("function".toList) p4.2 with
      | none => none
      | some r5 =>
        let p5 := r5.span isSpaceChar
        match expectChar '(' p5.2 with
        | none => none
        | some r6 => some (p2.1, s.length - r6.length)

/-- `\b([A-Za-z0-9_]+)\s*\([^)]*\)\s*{` — the `method_hint` pattern. -/
def matchMethod (prev : Option Char) (s : List Char) : Option (List Char × Nat) :=
  if !(wordBoundary prev) then none else
  let p1 := s.span isWordChar
  if p1.1.isEmpty then none else
  let p2 := p1.2.span isSpaceChar
  match expectChar '(' p2.2 with
  | none => none
  | some r3 =>
    let p3 := r3.span (fun c => !(c == ')'))
    match expectChar ')' p3.2 with
    | none => none
    | some r4 =>
      let p4 := r4.span isSpaceChar
      match expectChar '{' p4.2 with
      | none => none
      | some r5 => some (p1.1, s.length - r5.length)

/-- `JS_CALL_RE`: `\b([A-Za-z_][A-Za-z0-9_]*)\s*\(`. -/
def matchCall (prev : Option Char) (s : List Char) : Option (List Char × Nat) :=
  if !(wordBoundary prev) then none else
  match s with
  | [] => none
  | c :: r0 =>
    if !(isIdentStart c) then none else
    let p1 := r0.span isWordChar
    let p2 := p1.2.span isSpaceChar
    match expectChar '(' p2.2 with
    | none => none
    | some r3 => some (c :: p1.1, s.length - r3.length)

/-- `re.finditer` driver: scan left to right, at each index try the
matcher; on a match emit (start, captured name, end) and resume at the
match end (at least one character further); on failure advance by one.
`prev` is the character before the current position (for `\b`). -/
def finditerFuel (m : Option Char → List Char → Option (List Char × Nat)) :
    Nat → Option Char → Nat → List Char → List (Nat × List Char × Nat)
  | 0, _, _, _ => []
  | _, _, _, [] => []
  | fuel + 1, prev, i, c :: rest =>
    match m prev (c :: rest) with
    | some (nm, len) =>
      let step := max len 1
      (i, nm, i + len) ::
        finditerFuel m fuel (((c :: rest).drop (step - 1)).head?) (i + step)
          ((c :: rest).drop step)
    | none => finditerFuel m fuel (some c) (i + 1) rest

/-- `re.finditer`, started at the beginning of the text.  The fuel
argument of `finditerFuel` is the text length: every recursion step
consumes at least one character, so the fuel never runs out. -/
def finditerAux (m : Option Char → List Char → Option (List Char × Nat))
    (prev : Option Char) (i : Nat) (s : List Char) : List (Nat × List Char × Nat) :=
  finditerFuel m s.length prev i s

/-- One extracted JS/TS function (`JsFunction` in the source). -/
structure JsFunction where
  name : String
  start_idx : Nat
  end_idx : Nat
  start_line : Nat
  end_line : Nat
  src : String
  calls : Finset String
deriving DecidableEq, Inhabited

/-- The callee-denylist of control-flow/keyword tokens used when
harvesting calls (source line 187). -/
def jsCallKeywords : List String := ["if", "for", "while", "switch", "return", "function"]

/-- Call harvesting over a body: every `JS_CALL_RE` match whose name is
not in the denylist (source lines 184-188). -/
def harvestCalls (body : List Char) : Finset String :=
  (((finditerAux matchCall none 0 body).map (fun t => String.mk t.2.1)).filter
      (fun c => !(jsCallKeywords.contains c))).toFinset

/-- `_line_no(code, idx)`: 1-based line number of an index. -/
def _line_no (code : List Char) (idx : Nat) : Nat :=
  ((code.take idx).countP (fun c => c == '\n')) + 1

/-- `code.find("{", i)`: index of the first opening brace at or after `i`
(`none` models Python's `-1`). -/
def findBraceFrom (code : List Char) (i : Nat) : Option Nat :=
  ((code.drop i).findIdx? (fun c => c == '{')).map (fun k => i + k)

/-- Build the `JsFunction` for one regex match (source lines 162-189):
locate the opening brace after the match end, find its matching close via
`_brace_span`, cut the span and body and harvest calls; skip the
candidate when either brace is missing. -/
def candOfMatch (code : List Char) (t : Nat × List Char × Nat) : Option JsFunction :=
  match findBraceFrom code t.2.2 with
  | none => none
  | some braceIdx =>
    match _brace_span code braceIdx with
    | none => none
    | some endIdx =>
      some { name := String.mk t.2.1
             start_idx := t.1
             end_idx := endIdx + 1
             start_line := _line_no code t.1
             end_line := _line_no code (endIdx + 1)
             src := String.mk ((code.drop t.1).take (endIdx + 1 - t.1))
             calls := harvestCalls ((code.drop braceIdx).take (endIdx + 1 - braceIdx)) }

/-- The four patterns of `JS_FUNC_PATTERNS`, in source order. -/
def JS_FUNC_PATTERNS : List (Option Char → List Char → Option (List Char × Nat)) :=
  [matchDecl, matchArrow, matchExpr, matchMethod]

/-- All candidate `JsFunction`s of a file, in processing order (pattern
after pattern, matches left to right), after the empty-name guard and
brace resolution. -/
def jsCandidates (code : List Char) : List JsFunction :=
  (JS_FUNC_PATTERNS.map (fun rx =>
    ((finditerAux rx none 0 code).filter (fun t => !t.2.1.isEmpty)).filterMap
      (candOfMatch code))).flatten

/-- Span length of a candidate, `end_idx - start_idx` over Python ints. -/
def spanLen (jf : JsFunction) : Int := (jf.end_idx : Int) - (jf.start_idx : Int)

/-- The collision policy of `parse_js_functions` (source lines 190-192):
a candidate replaces the stored one of the same name only when its span
is strictly longer. -/
def insertCand (acc : List (String × JsFunction)) (jf : JsFunction) :
    List (String × JsFunction) :=
  match acc.lookup jf.name with
  | none => acc ++ [(jf.name, jf)]
  | some old =>
    if spanLen old < spanLen jf then
      acc.map (fun p => if p.1 == jf.name then (jf.name, jf) else p)
    else acc

/-- `parse_js_functions`: fold the candidates through the collision
policy, producing the name-keyed mapping `seen`. -/
def parse_js_functions (code : List Char) : List (String × JsFunction) :=
  (jsCandidates code).foldl insertCand []

/-! ## Grouping engine (`build_groups`, source lines 196-219)

`build_groups` symmetrizes the directed edge map over the given names,
runs a stack-based traversal collecting connected components in the order
of the names list, and finally sorts the components by descending size
with ties broken by the lexicographically smallest member.  The stack is
modelled with its top at the head (Python pushes and pops at the end of
the list), and stack entries carry the proof that they are names, which
is an invariant of the Python code (everything pushed comes from the
adjacency lists, whose entries are filtered by membership in the name
set). -/

/-- The symmetrized neighbor relation of the `graph` built in
`build_groups` (source lines 198-203): `x` and `y` are neighbors iff both
are names, they differ, and at least one of the directed edges between
them is present. -/
def isNbr (names : List String) (edges : String → Finset String)
    (x y : String) : Bool :=
  decide (x ∈ names) && decide (y ∈ names) && !(x == y) &&
    (decide (y ∈ edges x) || decide (x ∈ edges y))

/-- `sorted(graph[cur] - seen)` as pushed onto the stack (source line
215), reversed because the Lean stack keeps its top at the head. -/
def stackPush (names : List String) (edges : String → Finset String)
    (cur : String) (seen : Finset String) : List {x : String // x ∈ names} :=
  ((names.attach.filter (fun y =>
      isNbr names edges cur y.val && decide (y.val ∉ seen))).mergeSort
    (fun a b => decide (a.val ≤ b.val))).reverse

/-- The traversal loop of `build_groups` (source lines 210-215): pop,
skip seen nodes, otherwise mark seen, add to the component and push the
sorted unvisited neighbors. Returns the final (seen, component) pair. -/
def dfsAux (names : List String) (edges : String → Finset String) :
    Finset String → Finset String → List {x : String // x ∈ names} →
      Finset String × Finset String
  | seen, comp, [] => (seen, comp)
  | seen, comp, cur :: rest =>
    if cur.val ∈ seen then dfsAux names edges seen comp rest
    else
      dfsAux names edges (insert cur.val seen) (insert cur.val comp)
        (stackPush names edges cur.val (insert cur.val seen) ++ rest)
termination_by seen _ stack => ((names.toFinset \ seen).card, stack.length)
decreasing_by
  · apply Prod.Lex.right
    simp
  · apply Prod.Lex.left
    rw [Finset.sdiff_insert]
    apply Finset.card_erase_lt_of_mem
    simp only [Finset.mem_sdiff, List.mem_toFinset]
    exact ⟨cur.property, by assumption⟩

/-- The outer loop of `build_groups` (source lines 206-216): visit the
names in order, starting a traversal at each unseen name and collecting
the components in discovery order. -/
def groupsAux (names : List String) (edges : String → Finset String) :
    List {x : String // x ∈ names} → Finset String → List (Finset String)
  | [], _ => []
  | n :: rest, seen =>
    if n.val ∈ seen then groupsAux names edges rest seen
    else
      (dfsAux names edges seen ∅ [n]).2 ::
        groupsAux names edges rest (dfsAux names edges seen ∅ [n]).1

/-- `sorted(g)[0] if g else ""` — the lexicographically smallest member
of a group, used as sort tie-break (source line 218). -/
def gmin (g : Finset String) : String :=
  (g.sort (fun a b => a ≤ b)).headD ""

/-- The sort key order of `build_groups` (source line 218): descending
size, ties broken by ascending smallest member. -/
def groupLE (g h : Finset String) : Bool :=
  decide (h.card < g.card) || (decide (g.card = h.card) && decide (gmin g ≤ gmin h))

/-- `build_groups(names, edges)`: connected components of the
symmetrized call graph, sorted largest-first with deterministic
tie-break. -/
def build_groups (names : List String) (edges : String → Finset String) :
    List (Finset String) :=
  (groupsAux names edges names.attach ∅).mergeSort groupLE

/-! ## Call-edge builder and per-file pipeline (`analyze_file`, source
lines 361-377 and 410-424)

Both language paths build, from the extracted `name -> record` mapping,
a directed adjacency keeping only callees that are themselves extracted
names, and the inverse callers map. -/

/-- The per-function raw-callee mapping of a parse result. -/
def callsOf (funcs : List (String × JsFunction)) : List (String × Finset String) :=
  funcs.map (fun p => (p.1, p.2.calls))

/-- Edge restriction of `analyze_file`: `edges[n] = {c in calls(n) |
c is a known name}` (source lines 367-371 and 416-420). -/
def mkEdges (m : List (String × Finset String)) (n : String) : Finset String :=
  match m.lookup n with
  | some cs => cs.filter (fun c => (m.lookup c).isSome)
  | none => ∅

/-- Inverse (callers) map of `analyze_file` (source lines 374-377 and
422-424): `a` is a caller of `b` iff the directed edge `a -> b` exists. -/
def mkCallers (m : List (String × Finset String)) (b : String) : Finset String :=
  ((m.map Prod.fst).filter (fun a => decide (b ∈ mkEdges m a))).toFinset

/-- `sorted(funcs.keys())` (source lines 363 and 413). -/
def sortedNames (m : List (String × Finset String)) : List String :=
  (m.map Prod.fst).mergeSort (fun a b => decide (a ≤ b))

/-- The JS/TS per-file pipeline of `analyze_file` (source lines 410-421):
records, per-name sorted resolved-callee lists, and the ordered groups. -/
def jsAnalyze (code : List Char) :
    List (String × JsFunction) × List (String × List String) × List (Finset String) :=
  (parse_js_functions code,
   (sortedNames (callsOf (parse_js_functions code))).map
     (fun n => (n, (mkEdges (callsOf (parse_js_functions code)) n).sort (fun a b => a ≤ b))),
   build_groups (sortedNames (callsOf (parse_js_functions code)))
     (mkEdges (callsOf (parse_js_functions code))))

/-! ## Grammar-aware Python extractor (`parse_python_functions`, source
lines 58-103)

The CPython `ast` module is not part of this repository; the parser is
therefore an oracle parameter `pyParse` returning `none` exactly when
`ast.parse` raises (the `try/except` of source lines 61-64), and the
parsed module is a tree of function-defining nodes, call nodes (whose
callee is a bare name, an attribute, or something else) and other nodes.
`ast.get_source_segment` (also stdlib) is modelled by the line-slice
fallback of source line 77. -/

/-- The callee shape of an `ast.Call` node: `Name(id)`, `Attribute(attr)`
or anything else (source lines 85-93). -/
inductive PyExprKind where
  | nameF (id : String)
  | attrF (attr : String)
  | otherF

/-- A Python AST node, reduced to what `parse_python_functions`
inspects: function definitions (sync or async, with name and line span),
call expressions, and all other nodes with their children. -/
inductive PyNode where
  | funcDef (isAsync : Bool) (name : String) (lineno endLineno : Nat)
      (children : List PyNode)
  | callNode (fn : PyExprKind) (children : List PyNode)
  | other (children : List PyNode)

/-- Children of a node, the sub-nodes `ast.walk` enqueues. -/
def pyChildren : PyNode → List PyNode
  | .funcDef _ _ _ _ cs => cs
  | .callNode _ cs => cs
  | .other cs => cs

mutual

def pySize : PyNode → Nat
  | .funcDef _ _ _ _ cs => 1 + pyListSize cs
  | .callNode _ cs => 1 + pyListSize cs
  | .other cs => 1 + pyListSize cs

def pyListSize : List PyNode → Nat
  | [] => 0
  | n :: ns => pySize n + pyListSize ns

end

theorem pyListSize_append (a b : List PyNode) :
    pyListSize (a ++ b) = pyListSize a + pyListSize b := by
  induction a with
  | nil => simp [pyListSize]
  | cons n ns ih => simp [pyListSize, ih, Nat.add_assoc]

theorem pyChildren_size (n : PyNode) : pyListSize (pyChildren n) < pySize n := by
  cases n <;> simp [pyChildren, pySize]

/-- `ast.walk`: breadth-first traversal of all nodes. -/
def pyWalk : List PyNode → List PyNode
  | [] => []
  | n :: rest => n :: pyWalk (rest ++ pyChildren n)
termination_by l => pyListSize l
decreasing_by
  rw [pyListSize_append]
  have := pyChildren_size n
  simp [pyListSize]
  omega

mutual

def pyCalls : PyNode → Finset String
  | .callNode fn cs =>
    (match fn with
     | .nameF id => {id}
     | .attrF a => {a}
     | .otherF => ∅) ∪ pyCallsList cs
  | .funcDef _ _ _ _ cs => pyCallsList cs
  | .other cs => pyCallsList cs

def pyCallsList : List PyNode → Finset String
  | [] => ∅
  | n :: ns => pyCalls n ∪ pyCallsList ns

end

/-- One extracted Python function (`PyFunction` in the source). -/
structure PyFunction where
  name : String
  start : Nat
  stop : Nat
  src : String
  calls : Finset String
deriving DecidableEq, Inhabited

/-- The line-slice source segment `"\n".join(code.splitlines()[start-1:end])`
(the in-source fallback of line 77, standing in for the stdlib
`ast.get_source_segment`). -/
def lineSlice (code : String) (start stop : Nat) : String :=
  String.intercalate "\n" (((code.splitOn "\n").drop (start - 1)).take (stop - (start - 1)))

/-- First pass of `parse_python_functions` (source lines 67-78): walk the
tree and record every function definition, a later definition of the same
name overwriting the earlier one in place. -/
def pyCollect (code : String) (nodes : List PyNode) : List (String × PyFunction) :=
  nodes.foldl (fun acc n =>
    match n with
    | .funcDef _ nm ln eln _ =>
      (match acc.lookup nm with
       | none => acc ++ [(nm, ⟨nm, ln, eln, lineSlice code ln eln, ∅⟩)]
       | some _ =>
         acc.map (fun p =>
           if p.1 == nm then (nm, ⟨nm, ln, eln, lineSlice code ln eln, ∅⟩) else p))
    | _ => acc) []

/-- Second pass of `parse_python_functions` (source lines 95-101): union
into each recorded function the calls harvested from every
function-definition node of that name. -/
def pyAddCalls (nodes : List PyNode) (funcs : List (String × PyFunction)) :
    List (String × PyFunction) :=
  nodes.foldl (fun acc n =>
    match n with
    | .funcDef _ nm _ _ _ =>
      (match acc.lookup nm with
       | none => acc
       | some f =>
         acc.map (fun p =>
           if p.1 == nm then (nm, { f with calls := f.calls ∪ pyCalls n }) else p))
    | _ => acc) funcs

/-- `parse_python_functions` (source lines 58-103), with the stdlib
parser abstracted as the oracle `pyParse`; a parse failure (the
`except` of line 63) yields the empty mapping. -/
def parse_python_functions (pyParse : String → Option PyNode) (code : String) :
    List (String × PyFunction) :=
  match pyParse code with
  | none => []
  | some tree => pyAddCalls (pyWalk [tree]) (pyCollect code (pyWalk [tree]))

/-- The raw-callee mapping of a Python parse result. -/
def pyCallsOf (funcs : List (String × PyFunction)) : List (String × Finset String) :=
  funcs.map (fun p => (p.1, p.2.calls))

/-! ## Invariants of the traversal -/

theorem dfsAux_nil (names : List String) (edges : String → Finset String)
    (seen comp : Finset String) :
    dfsAux names edges seen comp [] = (seen, comp) := by
  simp [dfsAux]

theorem dfsAux_cons_seen (names : List String) (edges : String → Finset String)
    (seen comp : Finset String) (cur : {x : String // x ∈ names})
    (rest : List {x : String // x ∈ names}) (h : cur.val ∈ seen) :
    dfsAux names edges seen comp (cur :: rest) = dfsAux names edges seen comp rest := by
  rw [dfsAux]
  simp [h]

theorem dfsAux_cons_new (names : List String) (edges : String → Finset String)
    (seen comp : Finset String) (cur : {x : String // x ∈ names})
    (rest : List {x : String // x ∈ names}) (h : cur.val ∉ seen) :
    dfsAux names edges seen comp (cur :: rest) =
      dfsAux names edges (insert cur.val seen) (insert cur.val comp)
        (stackPush names edges cur.val (insert cur.val seen) ++ rest) := by
  rw [dfsAux]
  simp [h]

theorem card_sdiff_insert_lt (names : List String) (seen : Finset String)
    (c : String) (hc : c ∈ names) (hs : c ∉ seen) :
    (names.toFinset \ insert c seen).card < (names.toFinset \ seen).card := by
  rw [Finset.sdiff_insert]
  apply Finset.card_erase_lt_of_mem
  simp only [Finset.mem_sdiff, List.mem_toFinset]
  exact ⟨hc, hs⟩

theorem dfsAux_spec_aux (names : List String) (edges : String → Finset String) :
    ∀ (k : Nat) (seen : Finset String), (names.toFinset \ seen).card = k →
      ∀ (comp : Finset String) (stack : List {x : String // x ∈ names}),
        comp ⊆ seen →
        comp ⊆ (dfsAux names edges seen comp stack).2 ∧
        (dfsAux names edges seen comp stack).1 =
          seen ∪ ((dfsAux names edges seen comp stack).2 \ comp) ∧
        (dfsAux names edges seen comp stack).2 ⊆ comp ∪ (names.toFinset \ seen) := by
  intro k
  induction k using Nat.strong_induction_on with
  | _ k IH =>
    intro seen hk comp stack hcs
    induction stack with
    | nil =>
      rw [dfsAux_nil]
      refine ⟨le_refl _, ?_, ?_⟩
      · simp
      · exact Finset.subset_union_left
    | cons cur rest ihs =>
      by_cases hseen : cur.val ∈ seen
      · rw [dfsAux_cons_seen names edges seen comp cur rest hseen]
        exact ihs
      · rw [dfsAux_cons_new names edges seen comp cur rest hseen]
        have hlt : (names.toFinset \ insert cur.val seen).card < k := by
          rw [← hk]
          exact card_sdiff_insert_lt names seen cur.val cur.property hseen
        have hcs' : insert cur.val comp ⊆ insert cur.val seen :=
          Finset.insert_subset_insert _ hcs
        obtain ⟨h1, h2, h3⟩ := IH _ hlt (insert cur.val seen) rfl
          (insert cur.val comp)
          (stackPush names edges cur.val (insert cur.val seen) ++ rest) hcs'
        set R := (dfsAux names edges (insert cur.val seen) (insert cur.val comp)
          (stackPush names edges cur.val (insert cur.val seen) ++ rest)).2 with hR
        have hcR : cur.val ∈ R := h1 (Finset.mem_insert_self _ _)
        have hcnc : cur.val ∉ comp := fun hmem => hseen (hcs hmem)
        refine ⟨?_, ?_, ?_⟩
        · exact fun x hx => h1 (Finset.mem_insert_of_mem hx)
        · rw [h2]
          ext x
          by_cases hx : x = cur.val
          · subst hx
            simp [hcR, hcnc]
          · simp only [Finset.mem_union, Finset.mem_insert, Finset.mem_sdiff, hx,
              false_or]
        · intro x hx
          have := h3 hx
          simp only [Finset.mem_union, Finset.mem_insert, Finset.mem_sdiff,
            List.mem_toFinset] at this ⊢
          rcases this with (hxc | hxc) | ⟨hxn, hxs⟩
          · subst hxc
            exact Or.inr ⟨by simpa using cur.property, hseen⟩
          · exact Or.inl hxc
          · exact Or.inr ⟨hxn, fun hmem => hxs (Or.inr hmem)⟩

theorem dfsAux_props (names : List String) (edges : String → Finset String)
    (seen comp : Finset String) (stack : List {x : String // x ∈ names})
    (hcs : comp ⊆ seen) :
    comp ⊆ (dfsAux names edges seen comp stack).2 ∧
    (dfsAux names edges seen comp stack).1 =
      seen ∪ ((dfsAux names edges seen comp stack).2 \ comp) ∧
    (dfsAux names edges seen comp stack).2 ⊆ comp ∪ (names.toFinset \ seen) :=
  dfsAux_spec_aux names edges _ seen rfl comp stack hcs

theorem stackPush_mem_nbr (names : List String) (edges : String → Finset String)
    (cur : String) (seen : Finset String) (y : {x : String // x ∈ names})
    (hy : y ∈ stackPush names edges cur seen) :
    isNbr names edges cur y.val = true := by
  simp only [stackPush, List.mem_reverse, List.mem_mergeSort, List.mem_filter,
    Bool.and_eq_true] at hy
  exact hy.2.1

theorem stackPush_empty (names : List String) (edges : String → Finset String)
    (cur : String) (seen : Finset String)
    (hc : ∀ y, isNbr names edges cur y = false) :
    stackPush names edges cur seen = [] := by
  apply List.eq_nil_of_length_eq_zero
  simp only [stackPush, List.length_reverse, List.length_mergeSort]
  rw [List.length_eq_zero, List.filter_eq_nil_iff]
  intro y _
  simp [hc y.val]

theorem dfsAux_avoid_aux (names : List String) (edges : String → Finset String)
    (f : String) (hf : ∀ c, isNbr names edges c f = false) :
    ∀ (k : Nat) (seen : Finset String), (names.toFinset \ seen).card = k →
      ∀ (comp : Finset String), f ∉ comp →
        ∀ (stack : List {x : String // x ∈ names}),
          (∀ x ∈ stack, ¬ x.val = f) →
          f ∉ (dfsAux names edges seen comp stack).2 := by
  intro k
  induction k using Nat.strong_induction_on with
  | _ k IH =>
    intro seen hk comp hfc stack
    induction stack with
    | nil =>
      intro _
      rw [dfsAux_nil]
      exact hfc
    | cons cur rest ihs =>
      intro hfs
      by_cases hseen : cur.val ∈ seen
      · rw [dfsAux_cons_seen names edges seen comp cur rest hseen]
        exact ihs (fun x hx => hfs x (List.mem_cons_of_mem _ hx))
      · rw [dfsAux_cons_new names edges seen comp cur rest hseen]
        have hlt : (names.toFinset \ insert cur.val seen).card < k := by
          rw [← hk]
          exact card_sdiff_insert_lt names seen cur.val cur.property hseen
        apply IH _ hlt (insert cur.val seen) rfl
        · intro hmem
          rcases Finset.mem_insert.mp hmem with hc | hc
          · exact hfs cur (List.mem_cons_self _ _) hc.symm
          · exact hfc hc
        · intro x hx
          rcases List.mem_append.mp hx with hx1 | hx2
          · intro hxf
            have hnb := stackPush_mem_nbr names edges cur.val (insert cur.val seen) x hx1
            rw [hxf, hf cur.val] at hnb
            exact Bool.false_ne_true hnb
          · exact hfs x (List.mem_cons_of_mem _ hx2)

theorem dfsAux_avoid (names : List String) (edges : String → Finset String)
    (f : String) (hf : ∀ c, isNbr names edges c f = false)
    (seen comp : Finset String) (hfc : f ∉ comp)
    (stack : List {x : String // x ∈ names}) (hfs : ∀ x ∈ stack, ¬ x.val = f) :
    f ∉ (dfsAux names edges seen comp stack).2 :=
  dfsAux_avoid_aux names edges f hf _ seen rfl comp hfc stack hfs

theorem groupsAux_cons_seen (names : List String) (edges : String → Finset String)
    (n : {x : String // x ∈ names}) (rest : List {x : String // x ∈ names})
    (seen : Finset String) (h : n.val ∈ seen) :
    groupsAux names edges (n :: rest) seen = groupsAux names edges rest seen := by
  simp [groupsAux, h]

theorem groupsAux_cons_new (names : List String) (edges : String → Finset String)
    (n : {x : String // x ∈ names}) (rest : List {x : String // x ∈ names})
    (seen : Finset String) (h : n.val ∉ seen) :
    groupsAux names edges (n :: rest) seen =
      (dfsAux names edges seen ∅ [n]).2 ::
        groupsAux names edges rest (dfsAux names edges seen ∅ [n]).1 := by
  simp [groupsAux, h]

theorem dfs_root_mem (names : List String) (edges : String → Finset String)
    (seen : Finset String) (n : {x : String // x ∈ names}) (h : n.val ∉ seen) :
    n.val ∈ (dfsAux names edges seen ∅ [n]).2 := by
  rw [dfsAux_cons_new names edges seen ∅ n [] h]
  have hsub : insert n.val (∅ : Finset String) ⊆ insert n.val seen := by
    intro x hx
    rcases Finset.mem_insert.mp hx with hx | hx
    · exact hx ▸ Finset.mem_insert_self _ _
    · exact absurd hx (Finset.not_mem_empty x)
  obtain ⟨h1, _, _⟩ := dfsAux_props names edges (insert n.val seen)
    (insert n.val ∅) (stackPush names edges n.val (insert n.val seen) ++ []) hsub
  exact h1 (Finset.mem_insert_self _ _)

theorem groupsAux_props (names : List String) (edges : String → Finset String) :
    ∀ (remaining : List {x : String // x ∈ names}) (seen : Finset String),
      (∀ G ∈ groupsAux names edges remaining seen,
          G.Nonempty ∧ G ⊆ names.toFinset ∧ Disjoint G seen) ∧
      (groupsAux names edges remaining seen).Pairwise (fun g h => Disjoint g h) ∧
      (∀ x ∈ remaining, x.val ∈ seen ∨
          ∃ G ∈ groupsAux names edges remaining seen, x.val ∈ G) := by
  intro remaining
  induction remaining with
  | nil =>
    intro seen
    simp [groupsAux]
  | cons n rest ih =>
    intro seen
    by_cases hseen : n.val ∈ seen
    · rw [groupsAux_cons_seen names edges n rest seen hseen]
      obtain ⟨ha, hb, hc⟩ := ih seen
      refine ⟨ha, hb, ?_⟩
      intro x hx
      rcases List.mem_cons.mp hx with hx1 | hx2
      · rw [hx1]
        exact Or.inl hseen
      · exact hc x hx2
    · rw [groupsAux_cons_new names edges n rest seen hseen]
      obtain ⟨h1, h2, h3⟩ := dfsAux_props names edges seen ∅ [n] (Finset.empty_subset _)
      have hGn : n.val ∈ (dfsAux names edges seen ∅ [n]).2 :=
        dfs_root_mem names edges seen n hseen
      have hGsub : (dfsAux names edges seen ∅ [n]).2 ⊆ names.toFinset := by
        intro x hx
        rcases Finset.mem_union.mp (h3 hx) with hx1 | hx1
        · exact absurd hx1 (Finset.not_mem_empty x)
        · exact (Finset.mem_sdiff.mp hx1).1
      have hGdisj : Disjoint (dfsAux names edges seen ∅ [n]).2 seen := by
        rw [Finset.disjoint_left]
        intro x hx
        rcases Finset.mem_union.mp (h3 hx) with hx1 | hx1
        · exact absurd hx1 (Finset.not_mem_empty x)
        · exact (Finset.mem_sdiff.mp hx1).2
      have hseenEq : (dfsAux names edges seen ∅ [n]).1 =
          seen ∪ (dfsAux names edges seen ∅ [n]).2 := by
        rw [h2]
        congr 1
        simp
      obtain ⟨ha, hb, hc⟩ := ih (dfsAux names edges seen ∅ [n]).1
      refine ⟨?_, ?_, ?_⟩
      · intro G hG
        rcases List.mem_cons.mp hG with hG1 | hG2
        · subst hG1
          exact ⟨⟨n.val, hGn⟩, hGsub, hGdisj⟩
        · obtain ⟨hne, hsub, hdisj⟩ := ha G hG2
          refine ⟨hne, hsub, ?_⟩
          apply Finset.disjoint_of_subset_right _ hdisj
          rw [hseenEq]
          exact Finset.subset_union_left
      · rw [List.pairwise_cons]
        refine ⟨?_, hb⟩
        intro G hG
        obtain ⟨_, _, hdisj⟩ := ha G hG
        apply Finset.disjoint_of_subset_left _ hdisj.symm
        rw [hseenEq]
        exact Finset.subset_union_right
      · intro x hx
        rcases List.mem_cons.mp hx with hx1 | hx2
        · right
          exact ⟨(dfsAux names edges seen ∅ [n]).2, List.mem_cons_self _ _, hx1 ▸ hGn⟩
        · rcases hc x hx2 with hx3 | ⟨G, hG, hxG⟩
          · rw [hseenEq] at hx3
            rcases Finset.mem_union.mp hx3 with hx4 | hx4
            · exact Or.inl hx4
            · exact Or.inr ⟨_, List.mem_cons_self _ _, hx4⟩
          · exact Or.inr ⟨G, List.mem_cons_of_mem _ hG, hxG⟩

theorem build_groups_mem_iff (names : List String) (edges : String → Finset String)
    (G : Finset String) :
    G ∈ build_groups names edges ↔ G ∈ groupsAux names edges names.attach ∅ := by
  unfold build_groups
  exact List.mem_mergeSort

theorem build_groups_pairwise (names : List String) (edges : String → Finset String) :
    (build_groups names edges).Pairwise (fun g h => Disjoint g h) := by
  unfold build_groups
  have hperm := List.mergeSort_perm (groupsAux names edges names.attach ∅) groupLE
  have hsym : ∀ {a b : Finset String}, Disjoint a b → Disjoint b a :=
    fun h => h.symm
  rw [List.Perm.pairwise_iff hsym hperm]
  exact (groupsAux_props names edges names.attach ∅).2.1

theorem countP_one_of_disjoint (x : String) :
    ∀ (gs : List (Finset String)), gs.Pairwise (fun g h => Disjoint g h) →
      ∀ G ∈ gs, x ∈ G → gs.countP (fun g => decide (x ∈ g)) = 1 := by
  intro gs
  induction gs with
  | nil => intro _ G hG; cases hG
  | cons h t ih =>
    intro hp G hG hx
    obtain ⟨hdis, hp'⟩ := List.pairwise_cons.mp hp
    rw [List.countP_cons]
    by_cases hxh : x ∈ h
    · have ht0 : t.countP (fun g => decide (x ∈ g)) = 0 := by
        rw [List.countP_eq_zero]
        intro g hg
        simp only [decide_eq_true_eq]
        exact fun hxg => (Finset.disjoint_left.mp (hdis g hg)) hxh hxg
      simp [ht0, hxh]
    · have hGt : G ∈ t := by
        rcases List.mem_cons.mp hG with h1 | h1
        · exact absurd (h1 ▸ hx) hxh
        · exact h1
      simp [hxh, ih hp' G hGt hx]

/-- C1: for every input, the list of groups returned by `build_groups` is
a partition of the name set: every group is non-empty, groups are
pairwise disjoint, a name belongs to some group exactly when it is one of
the input names, and every input name lies in exactly one group of the
returned list. -/
theorem c1_groups_partition (names : List String) (edges : String → Finset String) :
    (∀ G ∈ build_groups names edges, G.Nonempty) ∧
    (build_groups names edges).Pairwise (fun g h => Disjoint g h) ∧
    (∀ x, (∃ G ∈ build_groups names edges, x ∈ G) ↔ x ∈ names) ∧
    (∀ x ∈ names, (build_groups names edges).countP (fun g => decide (x ∈ g)) = 1) := by
  obtain ⟨hmem, hpair, hcov⟩ := groupsAux_props names edges names.attach ∅
  have hexists : ∀ x ∈ names, ∃ G ∈ build_groups names edges, x ∈ G := by
    intro x hx
    rcases hcov ⟨x, hx⟩ (List.mem_attach _ _) with h1 | ⟨G, hG, hxG⟩
    · exact absurd h1 (Finset.not_mem_empty x)
    · exact ⟨G, (build_groups_mem_iff names edges G).mpr hG, hxG⟩
  refine ⟨?_, build_groups_pairwise names edges, ?_, ?_⟩
  · intro G hG
    exact (hmem G ((build_groups_mem_iff names edges G).mp hG)).1
  · intro x
    constructor
    · rintro ⟨G, hG, hxG⟩
      have hsub := (hmem G ((build_groups_mem_iff names edges G).mp hG)).2.1
      exact List.mem_toFinset.mp (hsub hxG)
    · exact hexists x
  · intro x hx
    obtain ⟨G, hG, hxG⟩ := hexists x hx
    exact countP_one_of_disjoint x _ (build_groups_pairwise names edges) G hG hxG

theorem groupLE_trans (a b c : Finset String)
    (h1 : groupLE a b = true) (h2 : groupLE b c = true) : groupLE a c = true := by
  simp only [groupLE, Bool.or_eq_true, Bool.and_eq_true, decide_eq_true_eq] at *
  rcases h1 with h1 | ⟨h1, h1'⟩ <;> rcases h2 with h2 | ⟨h2, h2'⟩
  · exact Or.inl (by omega)
  · exact Or.inl (by omega)
  · exact Or.inl (by omega)
  · exact Or.inr ⟨by omega, le_trans h1' h2'⟩

theorem groupLE_total (a b : Finset String) : (groupLE a b || groupLE b a) = true := by
  simp only [groupLE, Bool.or_eq_true, Bool.and_eq_true, decide_eq_true_eq]
  rcases Nat.lt_trichotomy a.card b.card with h | h | h
  · exact Or.inr (Or.inl h)
  · rcases le_total (gmin a) (gmin b) with hg | hg
    · exact Or.inl (Or.inr ⟨h, hg⟩)
    · exact Or.inr (Or.inr ⟨h.symm, hg⟩)
  · exact Or.inl (Or.inl h)

/-- C4: the group list returned by `build_groups` is ordered by
descending group size, ties between equal-sized groups broken by the
lexicographically smallest member name, and two runs on identical input
return identical lists. -/
theorem c4_group_order (names names' : List String)
    (edges edges' : String → Finset String)
    (h1 : names = names') (h2 : edges = edges') :
    build_groups names edges = build_groups names' edges' ∧
    (build_groups names edges).Pairwise (fun g h =>
      h.card < g.card ∨ (g.card = h.card ∧ gmin g ≤ gmin h)) := by
  subst h1
  subst h2
  refine ⟨rfl, ?_⟩
  unfold build_groups
  have hs := @List.sorted_mergeSort (Finset String) groupLE groupLE_trans
    groupLE_total (groupsAux names edges names.attach ∅)
  apply hs.imp
  intro a b hab
  simpa only [groupLE, Bool.or_eq_true, Bool.and_eq_true, decide_eq_true_eq] using hab

theorem c4_witness :
    (build_groups ["a"] (fun _ => ∅) = build_groups ["a"] (fun _ => ∅)) ∧
    (build_groups ["a"] (fun _ => ∅)).Pairwise (fun g h =>
      h.card < g.card ∨ (g.card = h.card ∧ gmin g ≤ gmin h)) :=
  c4_group_order ["a"] ["a"] (fun _ => ∅) (fun _ => ∅) rfl rfl

theorem dfs_single (names : List String) (edges : String → Finset String)
    (n : {x : String // x ∈ names}) (seen : Finset String) (hns : n.val ∉ seen)
    (hf2 : ∀ c, isNbr names edges n.val c = false) :
    dfsAux names edges seen ∅ [n] = (insert n.val seen, {n.val}) := by
  rw [dfsAux_cons_new names edges seen ∅ n [] hns,
    stackPush_empty names edges n.val (insert n.val seen) hf2]
  simp [dfsAux_nil]

/-- C10: a function `f` whose only resolved call edge is the self loop
(`edges f ⊆ {f}` and no other function has an edge to `f`) still ends up
in a singleton group `{f}`, because the self edge contributes no neighbor
when `build_groups` symmetrizes the graph (the `b != a` test of source
line 201). -/
theorem c10_self_edge_singleton (names : List String) (edges : String → Finset String)
    (f : String) (hfn : f ∈ names)
    (hout : edges f ⊆ {f}) (hin : ∀ g, g ≠ f → f ∉ edges g) :
    {f} ∈ build_groups names edges ∧
    ∀ G ∈ build_groups names edges, f ∈ G → G = {f} := by
  have hf1 : ∀ c, isNbr names edges c f = false := by
    intro c
    by_cases hcf : c = f
    · subst hcf
      simp [isNbr]
    · have h1 : f ∉ edges c := hin c hcf
      have h2 : c ∉ edges f := fun hc => hcf (Finset.mem_singleton.mp (hout hc))
      simp [isNbr, h1, h2]
  have hf2 : ∀ c, isNbr names edges f c = false := by
    intro c
    by_cases hcf : c = f
    · subst hcf
      simp [isNbr]
    · have h1 : f ∉ edges c := hin c hcf
      have h2 : c ∉ edges f := fun hc => hcf (Finset.mem_singleton.mp (hout hc))
      simp [isNbr, h1, h2, Ne.symm hcf]
  have hall : ∀ (remaining : List {x : String // x ∈ names}) (seen : Finset String),
      ∀ G ∈ groupsAux names edges remaining seen, f ∈ G → G = {f} := by
    intro remaining
    induction remaining with
    | nil =>
      intro seen G hG
      simp [groupsAux] at hG
    | cons n rest ih =>
      intro seen G hG hfG
      by_cases hseen : n.val ∈ seen
      · rw [groupsAux_cons_seen names edges n rest seen hseen] at hG
        exact ih seen G hG hfG
      · rw [groupsAux_cons_new names edges n rest seen hseen] at hG
        rcases List.mem_cons.mp hG with h1 | h1
        · by_cases hnf : n.val = f
          · have hd := dfs_single names edges n seen hseen (by rw [hnf]; exact hf2)
            rw [h1, hd, hnf]
          · exfalso
            have hfnot : f ∉ (dfsAux names edges seen ∅ [n]).2 := by
              apply dfsAux_avoid names edges f hf1 seen ∅ (Finset.not_mem_empty f)
              intro x hx
              rcases List.mem_cons.mp hx with hx1 | hx1
              · rw [hx1]
                exact hnf
              · cases hx1
            exact hfnot (h1 ▸ hfG)
        · exact ih _ G h1 hfG
  constructor
  · obtain ⟨hmem, hpair, hcov⟩ := groupsAux_props names edges names.attach ∅
    rcases hcov ⟨f, hfn⟩ (List.mem_attach _ _) with h1 | ⟨G, hG, hxG⟩
    · exact absurd h1 (Finset.not_mem_empty f)
    · have hGf : G = {f} := hall names.attach ∅ G hG hxG
      rw [build_groups_mem_iff]
      exact hGf ▸ hG
  · intro G hG hfG
    exact hall names.attach ∅ G ((build_groups_mem_iff names edges G).mp hG) hfG

theorem c10_witness :
    ({"f"} ∈ build_groups ["a", "f"]
        (fun x => if x = "f" then ({"f"} : Finset String) else ∅)) ∧
    ∀ G ∈ build_groups ["a", "f"]
        (fun x => if x = "f" then ({"f"} : Finset String) else ∅),
      "f" ∈ G → G = {"f"} :=
  c10_self_edge_singleton ["a", "f"] _ "f" (by simp) (by simp)
    (by intro g hg; simp [hg])

/-! ## The collision policy of `parse_js_functions` -/

/-- One step of the longest-span-wins selection (the test of source line
191). -/
def pickStep (a : Option JsFunction) (jf : JsFunction) : Option JsFunction :=
  match a with
  | none => some jf
  | some old => if spanLen old < spanLen jf then some jf else some old

/-- Longest-span-wins selection folded over a candidate list. -/
def pickF (acc : Option JsFunction) (l : List JsFunction) : Option JsFunction :=
  l.foldl pickStep acc

theorem lookup_map_replace_self (nm : String) (jf : JsFunction) :
    ∀ (acc : List (String × JsFunction)), (acc.lookup nm).isSome = true →
      (acc.map (fun p => if p.1 == nm then (nm, jf) else p)).lookup nm = some jf := by
  intro acc
  induction acc with
  | nil => simp
  | cons p t ih =>
    obtain ⟨k, v⟩ := p
    intro hsome
    rcases hp : (k == nm) with _ | _
    · have hnk : (nm == k) = false := by
        rcases h : nm == k with _ | _
        · rfl
        · rw [beq_iff_eq.mp h, beq_self_eq_true] at hp
          exact absurd hp (by simp)
      rw [List.lookup_cons, hnk] at hsome
      simp only [List.map_cons, hp, Bool.false_eq_true, if_false]
      rw [List.lookup_cons, hnk]
      exact ih hsome
    · simp only [List.map_cons, hp, if_true]
      rw [List.lookup_cons]
      simp

theorem lookup_map_replace_other (nm name : String) (jf : JsFunction)
    (hne : ¬(nm = name)) :
    ∀ (acc : List (String × JsFunction)),
      (acc.map (fun p => if p.1 == nm then (nm, jf) else p)).lookup name =
        acc.lookup name := by
  intro acc
  induction acc with
  | nil => simp
  | cons p t ih =>
    obtain ⟨k, v⟩ := p
    rcases hp : (k == nm) with _ | _
    · simp only [List.map_cons, hp, Bool.false_eq_true, if_false]
      rw [List.lookup_cons, List.lookup_cons]
      cases name == k
      · exact ih
      · rfl
    · simp only [List.map_cons, hp, if_true]
      rw [List.lookup_cons, List.lookup_cons]
      have h1 : (name == nm) = false := by
        rcases h : name == nm with _ | _
        · rfl
        · exact absurd (beq_iff_eq.mp h).symm hne
      have h2 : (name == k) = false := by
        rcases h : name == k with _ | _
        · rfl
        · rw [beq_iff_eq.mp h, beq_iff_eq.mp hp] at h1
          simp at h1
      rw [h1, h2]
      exact ih

theorem insertCand_lookup_self (acc : List (String × JsFunction)) (jf : JsFunction) :
    (insertCand acc jf).lookup jf.name = pickStep (acc.lookup jf.name) jf := by
  unfold insertCand pickStep
  cases h : acc.lookup jf.name with
  | none =>
    rw [List.lookup_append, h, Option.none_or]
    rw [List.lookup_cons]
    simp
  | some old =>
    by_cases hlt : spanLen old < spanLen jf
    · simp only [hlt, if_true]
      exact lookup_map_replace_self jf.name jf acc (by rw [h]; rfl)
    · simp only [hlt, if_false]
      exact h

theorem insertCand_lookup_other (acc : List (String × JsFunction)) (jf : JsFunction)
    (name : String) (hne : ¬(jf.name = name)) :
    (insertCand acc jf).lookup name = acc.lookup name := by
  unfold insertCand
  cases h : acc.lookup jf.name with
  | none =>
    rw [List.lookup_append]
    rw [List.lookup_cons]
    have h1 : (name == jf.name) = false := by
      rcases hh : name == jf.name with _ | _
      · rfl
      · exact absurd (beq_iff_eq.mp hh).symm hne
    rw [h1]
    cases hx : acc.lookup name
    · rfl
    · rfl
  | some old =>
    by_cases hlt : spanLen old < spanLen jf
    · simp only [hlt, if_true]
      exact lookup_map_replace_other jf.name name jf hne acc
    · simp only [hlt, if_false]

theorem lookup_foldl_insertCand (name : String) :
    ∀ (l : List JsFunction) (acc : List (String × JsFunction)),
      (l.foldl insertCand acc).lookup name =
        pickF (acc.lookup name) (l.filter (fun c => c.name == name)) := by
  intro l
  induction l with
  | nil => intro acc; simp [pickF]
  | cons jf t ih =>
    intro acc
    rw [List.foldl_cons, ih (insertCand acc jf)]
    by_cases hn : jf.name = name
    · rw [List.filter_cons_of_pos (by simp [hn])]
      unfold pickF
      rw [List.foldl_cons]
      congr 1
      rw [← hn]
      exact insertCand_lookup_self acc jf
    · rw [List.filter_cons_of_neg (by simp [hn])]
      congr 1
      exact insertCand_lookup_other acc jf name hn

theorem pickF_some_spec :
    ∀ (l : List JsFunction) (cur jf : JsFunction),
      pickF (some cur) l = some jf →
        (jf = cur ∧ ∀ c ∈ l, spanLen c ≤ spanLen cur) ∨
        (∃ pre post, l = pre ++ jf :: post ∧ spanLen cur < spanLen jf ∧
          (∀ c ∈ pre, spanLen c < spanLen jf) ∧
          (∀ c ∈ post, spanLen c ≤ spanLen jf)) := by
  intro l
  induction l with
  | nil =>
    intro cur jf h
    simp only [pickF, List.foldl_nil, Option.some_inj] at h
    exact Or.inl ⟨h.symm, by simp⟩
  | cons a t ih =>
    intro cur jf h
    unfold pickF at h
    rw [List.foldl_cons] at h
    by_cases hlt : spanLen cur < spanLen a
    · rw [show pickStep (some cur) a = some a by simp [pickStep, hlt]] at h
      rcases ih a jf h with ⟨h1, h2⟩ | ⟨pre, post, h1, h2, h3, h4⟩
      · subst h1
        exact Or.inr ⟨[], t, rfl, hlt, by simp, h2⟩
      · refine Or.inr ⟨a :: pre, post, by rw [h1, List.cons_append], lt_trans hlt h2, ?_, h4⟩
        intro c hc
        rcases List.mem_cons.mp hc with hc1 | hc1
        · exact hc1 ▸ h2
        · exact h3 c hc1
    · rw [show pickStep (some cur) a = some cur by simp [pickStep, hlt]] at h
      rcases ih cur jf h with ⟨h1, h2⟩ | ⟨pre, post, h1, h2, h3, h4⟩
      · refine Or.inl ⟨h1, ?_⟩
        intro c hc
        rcases List.mem_cons.mp hc with hc1 | hc1
        · subst hc1
          omega
        · exact h2 c hc1
      · refine Or.inr ⟨a :: pre, post, by rw [h1, List.cons_append], h2, ?_, h4⟩
        intro c hc
        rcases List.mem_cons.mp hc with hc1 | hc1
        · subst hc1
          omega
        · exact h3 c hc1

theorem pickF_none_spec (l : List JsFunction) (jf : JsFunction)
    (h : pickF none l = some jf) :
    ∃ pre post, l = pre ++ jf :: post ∧
      (∀ c ∈ pre, spanLen c < spanLen jf) ∧
      (∀ c ∈ post, spanLen c ≤ spanLen jf) := by
  match l with
  | [] => simp [pickF] at h
  | a :: t =>
    unfold pickF at h
    rw [List.foldl_cons] at h
    rw [show pickStep none a = some a from rfl] at h
    rcases pickF_some_spec t a jf h with ⟨h1, h2⟩ | ⟨pre, post, h1, h2, h3, h4⟩
    · subst h1
      exact ⟨[], t, rfl, by simp, h2⟩
    · refine ⟨a :: pre, post, by rw [h1, List.cons_append], ?_, h4⟩
      intro c hc
      rcases List.mem_cons.mp hc with hc1 | hc1
      · exact hc1 ▸ h2
      · exact h3 c hc1

/-- C6: when several candidates of the same name are matched in one file,
the mapping returned by `parse_js_functions` keeps a candidate of maximal
span; among the same-named candidates (in processing order) every one
before the kept candidate is strictly shorter and every one after is no
longer, so the kept candidate is the first of maximal span length and the
selection is deterministic. -/
theorem c6_collision_policy (code : List Char) (name : String) (jf : JsFunction)
    (h : (parse_js_functions code).lookup name = some jf) :
    jf.name = name ∧
    jf ∈ (jsCandidates code).filter (fun c => c.name == name) ∧
    (∀ c ∈ (jsCandidates code).filter (fun c => c.name == name),
      spanLen c ≤ spanLen jf) ∧
    ∃ pre post,
      (jsCandidates code).filter (fun c => c.name == name) = pre ++ jf :: post ∧
      (∀ c ∈ pre, spanLen c < spanLen jf) ∧
      (∀ c ∈ post, spanLen c ≤ spanLen jf) := by
  unfold parse_js_functions at h
  rw [lookup_foldl_insertCand name (jsCandidates code) []] at h
  simp only [List.lookup_nil] at h
  obtain ⟨pre, post, h1, h2, h3⟩ := pickF_none_spec _ jf h
  have hjmem : jf ∈ (jsCandidates code).filter (fun c => c.name == name) := by
    rw [h1]
    exact List.mem_append_right _ (List.mem_cons_self _ _)
  refine ⟨?_, hjmem, ?_, pre, post, h1, h2, h3⟩
  · have := List.of_mem_filter hjmem
    exact beq_iff_eq.mp this
  · intro c hc
    rw [h1] at hc
    rcases List.mem_append.mp hc with hc1 | hc1
    · exact le_of_lt (h2 c hc1)
    · rcases List.mem_cons.mp hc1 with hc2 | hc2
      · exact le_of_eq (by rw [hc2])
      · exact h3 c hc2

/-! ## Claim theorems on the extractors and the call graph -/

theorem parse_lookup_mem_candidates (code : List Char) (name : String)
    (jf : JsFunction) (h : (parse_js_functions code).lookup name = some jf) :
    jf ∈ jsCandidates code := by
  unfold parse_js_functions at h
  rw [lookup_foldl_insertCand name (jsCandidates code) []] at h
  simp only [List.lookup_nil] at h
  obtain ⟨pre, post, h1, _, _⟩ := pickF_none_spec _ jf h
  have : jf ∈ (jsCandidates code).filter (fun c => c.name == name) := by
    rw [h1]
    exact List.mem_append_right _ (List.mem_cons_self _ _)
  exact List.mem_of_mem_filter this

theorem jsCandidates_shape (code : List Char) (jf : JsFunction)
    (h : jf ∈ jsCandidates code) :
    ∃ t, candOfMatch code t = some jf := by
  unfold jsCandidates at h
  rw [List.mem_flatten] at h
  obtain ⟨l, hl, hjf⟩ := h
  rw [List.mem_map] at hl
  obtain ⟨rx, _, hrx⟩ := hl
  rw [← hrx] at hjf
  rw [List.mem_filterMap] at hjf
  obtain ⟨t, _, ht⟩ := hjf
  exact ⟨t, ht⟩

theorem candOfMatch_calls (code : List Char) (t : Nat × List Char × Nat)
    (jf : JsFunction) (h : candOfMatch code t = some jf) :
    ∃ body, jf.calls = harvestCalls body := by
  unfold candOfMatch at h
  cases h1 : findBraceFrom code t.2.2 with
  | none => rw [h1] at h; simp at h
  | some braceIdx =>
    rw [h1] at h
    dsimp only at h
    cases h2 : _brace_span code braceIdx with
    | none => rw [h2] at h; simp at h
    | some endIdx =>
      rw [h2] at h
      dsimp only at h
      refine ⟨(code.drop braceIdx).take (endIdx + 1 - braceIdx), ?_⟩
      have h3 := Option.some_inj.mp h
      rw [← h3]

theorem harvestCalls_not_keyword (body : List Char) (b : String)
    (h : b ∈ harvestCalls body) : ¬ b ∈ jsCallKeywords := by
  unfold harvestCalls at h
  rw [List.mem_toFinset] at h
  have := List.of_mem_filter h
  simpa using this

theorem callsOf_lookup (funcs : List (String × JsFunction)) (n : String) :
    (callsOf funcs).lookup n = (funcs.lookup n).map (fun f => f.calls) := by
  induction funcs with
  | nil => simp [callsOf]
  | cons p t ih =>
    obtain ⟨k, v⟩ := p
    simp only [callsOf, List.map_cons]
    rw [List.lookup_cons, List.lookup_cons]
    cases n == k
    · exact ih
    · rfl

theorem mem_mkEdges (m : List (String × Finset String)) (a b : String)
    (h : b ∈ mkEdges m a) :
    ∃ cs, m.lookup a = some cs ∧ b ∈ cs ∧ (m.lookup b).isSome = true := by
  unfold mkEdges at h
  cases hl : m.lookup a with
  | none => rw [hl] at h; exact absurd h (Finset.not_mem_empty b)
  | some cs =>
    rw [hl] at h
    rw [Finset.mem_filter] at h
    exact ⟨cs, rfl, h.1, by simpa using h.2⟩

theorem lookup_some_mem_keys {β : Type} (m : List (String × β)) (a : String)
    (h : (m.lookup a).isSome = true) : a ∈ m.map Prod.fst := by
  induction m with
  | nil => simp [List.lookup] at h
  | cons p t ih =>
    obtain ⟨k, v⟩ := p
    rw [List.lookup_cons] at h
    rcases hk : a == k with _ | _
    · rw [hk] at h
      exact List.mem_cons_of_mem _ (ih h)
    · simp only [List.map_cons]
      exact (beq_iff_eq.mp hk) ▸ List.mem_cons_self _ _

/-- C2: the heuristic extractor is documented (and specified) to filter
`method_hint` matches against a keyword denylist, but `parse_js_functions`
applies no such filter to candidate names; on the failing input below it
emits a `FunctionRecord` whose name is the control-flow keyword `if`. -/
theorem c2_keyword_name_emitted :
    ((parse_js_functions
        ("if (a) \x7b b(); \x7d function g() \x7b h(); \x7d").toList).lookup
      "if").isSome = true ∧
    "if" ∈ jsCallKeywords := by
  constructor
  · rfl
  · decide

/-- C3 counterexample: on this input the call graph contains the edge
`a -> catch`, whose callee is the control-flow keyword `catch`; `catch`
is absent from the harvesting denylist and the `method_hint` pattern
extracts a function named `catch`, so the claim as stated is false. -/
theorem c3_counterexample_catch_edge :
    "catch" ∈ mkEdges
      (callsOf (parse_js_functions
        ("function a() \x7b try \x7b b(); \x7d catch (err) \x7b \x7d \x7d function c() \x7b a(); \x7d").toList))
      "a" := by
  decide

/-- C3 (amended): no call-graph edge has a callee belonging to the fixed
harvesting denylist `{if, for, while, switch, return, function}`; callees
in that denylist are dropped when calls are harvested, so they never
appear as edges.  (Other control-flow keywords such as `catch` are not in
the denylist and can appear, as the counterexample shows.) -/
theorem c3_denylist_never_edges (code : List Char) (a b : String)
    (h : b ∈ mkEdges (callsOf (parse_js_functions code)) a) :
    ¬ b ∈ jsCallKeywords := by
  obtain ⟨cs, hl, hb, _⟩ := mem_mkEdges _ a b h
  rw [callsOf_lookup] at hl
  cases hjf : (parse_js_functions code).lookup a with
  | none => rw [hjf] at hl; cases hl
  | some jf =>
    rw [hjf] at hl
    simp only [Option.map_some'] at hl
    obtain ⟨t, ht⟩ := jsCandidates_shape code jf
      (parse_lookup_mem_candidates code a jf hjf)
    obtain ⟨body, hcalls⟩ := candOfMatch_calls code t jf ht
    apply harvestCalls_not_keyword body b
    rw [← hcalls, Option.some_inj.mp hl]
    exact hb

theorem c3_witness :
    ("b" ∈ mkEdges
      (callsOf (parse_js_functions
        ("function b() \x7b \x7d function a() \x7b b(); \x7d").toList)) "a") ∧
    ¬ "b" ∈ jsCallKeywords :=
  ⟨by decide,
   c3_denylist_never_edges
     ("function b() \x7b \x7d function a() \x7b b(); \x7d").toList "a" "b"
     (by decide)⟩

/-- C8: the call-graph builder materializes a directed edge `(a, b)` iff
the caller `a` is an extracted function whose raw callees contain `b` and
`b` is itself an extracted name; and the callers map is exactly the
inverse of the callees adjacency. -/
theorem c8_edges_iff (m : List (String × Finset String)) (a b : String) :
    (b ∈ mkEdges m a ↔
      ∃ cs, m.lookup a = some cs ∧ b ∈ cs ∧ (m.lookup b).isSome = true) ∧
    (a ∈ mkCallers m b ↔ b ∈ mkEdges m a) := by
  constructor
  · constructor
    · exact mem_mkEdges m a b
    · rintro ⟨cs, hl, hb, hsome⟩
      unfold mkEdges
      rw [hl]
      rw [Finset.mem_filter]
      exact ⟨hb, by simpa using hsome⟩
  · constructor
    · intro h
      unfold mkCallers at h
      rw [List.mem_toFinset, List.mem_filter] at h
      simpa using h.2
    · intro h
      unfold mkCallers
      rw [List.mem_toFinset, List.mem_filter]
      refine ⟨?_, by simpa using h⟩
      obtain ⟨cs, hl, _, _⟩ := mem_mkEdges m a b h
      exact lookup_some_mem_keys m a (by rw [hl]; rfl)

/-- C9: the whole JS/TS per-file pipeline (extraction, edge building,
grouping) is a pure function of the source text, so two runs on
identical text return identical function records, identical resolved
edges and the identical ordered group list. -/
theorem c9_pipeline_deterministic (code1 code2 : List Char) (h : code1 = code2) :
    jsAnalyze code1 = jsAnalyze code2 := by
  rw [h]

theorem c9_witness :
    jsAnalyze ("function a() \x7b b(); \x7d".toList) =
      jsAnalyze ("function a() \x7b b(); \x7d".toList) :=
  c9_pipeline_deterministic _ _ rfl

/-- C7: grammar-aware Python extraction on text the parser rejects
returns the empty mapping (the `except` path of source lines 61-64) —
modelled totally, so no exception escapes — and the per-file result then
has no function names and `build_groups` returns no groups. -/
theorem c7_unparsable_empty (pyParse : String → Option PyNode) (code : String)
    (h : pyParse code = none) :
    parse_python_functions pyParse code = [] ∧
    build_groups (sortedNames (pyCallsOf (parse_python_functions pyParse code)))
      (mkEdges (pyCallsOf (parse_python_functions pyParse code))) = [] := by
  have h1 : parse_python_functions pyParse code = [] := by
    unfold parse_python_functions
    rw [h]
  refine ⟨h1, ?_⟩
  rw [h1]
  unfold build_groups
  rw [show sortedNames (pyCallsOf []) = [] by
    unfold sortedNames pyCallsOf
    simp only [List.map_nil]
    rw [List.mergeSort_nil]]
  rw [List.attach_nil]
  rw [show groupsAux [] (mkEdges (pyCallsOf [])) [] ∅ = [] from rfl]
  rw [List.mergeSort_nil]

theorem c7_witness :
    parse_python_functions (fun _ => none) "def f(:" = [] ∧
    build_groups
      (sortedNames (pyCallsOf (parse_python_functions (fun _ => none) "def f(:")))
      (mkEdges (pyCallsOf (parse_python_functions (fun _ => none) "def f(:"))) = [] :=
  c7_unparsable_empty (fun _ => none) "def f(:" rfl

theorem c5_witness :
    _brace_span ("function a() \x7b x = \x27a\x7db\x27; \x7d").toList 13 =
      matchingCloseSpec ("function a() \x7b x = \x27a\x7db\x27; \x7d").toList 13 ∧
    _brace_span ("function a() \x7b x = \x27a\x7db\x27; \x7d").toList 13 = some 26 ∧
    (((parse_js_functions ("function a() \x7b x = \x27a\x7db\x27; \x7d").toList).lookup
        "a").getD default).end_idx = 27 :=
  ⟨c5_brace_span_correct ("function a() \x7b x = \x27a\x7db\x27; \x7d").toList 13 (by rfl),
   by rfl, by rfl⟩

theorem c6_witness :
    (((parse_js_functions
        ("function a() \x7b \x7d function a() \x7b b(); \x7d").toList).lookup
      "a").getD default).name = "a" ∧
    ((parse_js_functions
        ("function a() \x7b \x7d function a() \x7b b(); \x7d").toList).lookup
      "a").getD default ∈
      (jsCandidates ("function a() \x7b \x7d function a() \x7b b(); \x7d").toList).filter
        (fun c => c.name == "a") ∧
    (∀ c ∈ (jsCandidates
        ("function a() \x7b \x7d function a() \x7b b(); \x7d").toList).filter
          (fun c => c.name == "a"),
      spanLen c ≤ spanLen (((parse_js_functions
        ("function a() \x7b \x7d function a() \x7b b(); \x7d").toList).lookup
          "a").getD default)) ∧
    ∃ pre post,
      (jsCandidates ("function a() \x7b \x7d function a() \x7b b(); \x7d").toList).filter
        (fun c => c.name == "a") =
        pre ++ (((parse_js_functions
          ("function a() \x7b \x7d function a() \x7b b(); \x7d").toList).lookup
            "a").getD default) :: post ∧
      (∀ c ∈ pre, spanLen c < spanLen (((parse_js_functions
        ("function a() \x7b \x7d function a() \x7b b(); \x7d").toList).lookup
          "a").getD default)) ∧
      (∀ c ∈ post, spanLen c ≤ spanLen (((parse_js_functions
        ("function a() \x7b \x7d function a() \x7b b(); \x7d").toList).lookup
          "a").getD default)) :=
  c6_collision_policy ("function a() \x7b \x7d function a() \x7b b(); \x7d").toList
    "a" _ rfl

theorem c1_witness :
    (∀ G ∈ build_groups ["a", "b"] (fun _ => (∅ : Finset String)), G.Nonempty) ∧
    (build_groups ["a", "b"] (fun _ => (∅ : Finset String))).Pairwise
      (fun g h => Disjoint g h) ∧
    (∀ x, (∃ G ∈ build_groups ["a", "b"] (fun _ => (∅ : Finset String)), x ∈ G) ↔
      x ∈ ["a", "b"]) ∧
    (∀ x ∈ ["a", "b"],
      (build_groups ["a", "b"] (fun _ => (∅ : Finset String))).countP
        (fun g => decide (x ∈ g)) = 1) :=
  c1_groups_partition ["a", "b"] (fun _ => ∅)

theorem c8_witness :
    (("b" ∈ mkEdges [("a", ({"b"} : Finset String)), ("b", ∅)] "a" ↔
      ∃ cs, (List.lookup "a" [("a", ({"b"} : Finset String)), ("b", ∅)]) = some cs ∧
        "b" ∈ cs ∧
        (List.lookup "b" [("a", ({"b"} : Finset String)), ("b", ∅)]).isSome = true) ∧
    ("a" ∈ mkCallers [("a", ({"b"} : Finset String)), ("b", ∅)] "b" ↔
      "b" ∈ mkEdges [("a", ({"b"} : Finset String)), ("b", ∅)] "a")) :=
  c8_edges_iff [("a", {"b"}), ("b", ∅)] "a" "b"
